import Mathlib

/-!
Shallow embedding of the `rslox` lexical scanner (`src/lexer/mod.rs`).

The source buffer is modelled as a `List Nat` of bytes (the design assumes
single-byte ASCII-range characters).  The Rust operations that can panic —
slice indexing in `peek` / `get_current_char_byte`, range slices for literal
payloads, and the two explicit `panic!` sites (invalid token, non-terminated
string) — are modelled as `Except LexError` values; the two `panic!` sites
become the `invalidCharacter` / `unterminatedString` errors, and an
out-of-bounds index becomes `indexOutOfBounds` (proved unreachable below).

The three `while` loops (`eat_string`, `eat_number`, the comment skipper) and
the main `lex` loop recurse on an explicit fuel parameter so that every
definition is structurally recursive and kernel-computable; each call site
passes `code_bytes.length + 1` fuel, which dominates the number of loop
iterations because every iteration advances the cursor by at least one.
-/

namespace RsLox

/-- Byte value of the newline character, `NEW_LINE` in the source. -/
def NEW_LINE : Nat := 10

/-- Byte value of the carriage-return character, `LINE_FEED` in the source. -/
def LINE_FEED : Nat := 13

/-- `TokenLocation { row, col }` from the source. -/
structure TokenLocation where
  row : Nat
  col : Nat
deriving DecidableEq, Repr

/-- The `Operators` enum from the source. -/
inductive Operators where
  | plus
  | minus
  | star
  | assignment
  | increment
  | decrement
deriving DecidableEq, Repr

/-- The `Literals` enum from the source; payloads are byte slices of the input. -/
inductive Literals where
  | string (bytes : List Nat)
  | number (bytes : List Nat)
deriving DecidableEq, Repr

/-- The `Token` enum from the source. -/
inductive Token where
  | operator (loc : TokenLocation) (op : Operators)
  | openBrace (loc : TokenLocation)
  | closeBrace (loc : TokenLocation)
  | openParen (loc : TokenLocation)
  | closeParen (loc : TokenLocation)
  | literal (loc : TokenLocation) (lit : Literals)
  | eof (loc : TokenLocation)
deriving DecidableEq, Repr

/-- Failure values of the scan: the two `panic!` sites of the source become
`invalidCharacter` and `unterminatedString`; `indexOutOfBounds` models a Rust
slice-index panic and is proved unreachable. -/
inductive LexError where
  | invalidCharacter (character : Nat) (row : Nat) (col : Nat)
  | unterminatedString (row : Nat) (col : Nat)
  | indexOutOfBounds
deriving DecidableEq, Repr

/-- The `Lexer` struct from the source: mutable scanning state. -/
structure Lexer where
  row : Nat
  col : Nat
  current : Nat
  code_bytes : List Nat
  tokens : List Token
deriving DecidableEq, Repr

/-- The value of the Rust range slice `code[a..b]` when it is in bounds. -/
def listSlice (code : List Nat) (a b : Nat) : List Nat :=
  (code.drop a).take (b - a)

/-- Rust range slice `&code[a..b]`: panics (here: `indexOutOfBounds`) unless
`a ≤ b ≤ code.len()`. -/
def rangeSlice (code : List Nat) (a b : Nat) : Except LexError (List Nat) :=
  if a ≤ b ∧ b ≤ code.length then Except.ok (listSlice code a b)
  else Except.error LexError.indexOutOfBounds

namespace Lexer

/-- `Lexer::new()`. -/
def new : Lexer :=
  { row := 1, col := 1, current := 0, tokens := [], code_bytes := [] }

/-- `Lexer::peek`: `self.code_bytes[self.current + 1]`, a panicking index. -/
def peek (s : Lexer) : Except LexError Nat :=
  match s.code_bytes.get? (s.current + 1) with
  | some b => Except.ok b
  | none => Except.error LexError.indexOutOfBounds

/-- `Lexer::get_current_char_byte`: `self.code_bytes[self.current]`. -/
def get_current_char_byte (s : Lexer) : Except LexError Nat :=
  match s.code_bytes.get? s.current with
  | some b => Except.ok b
  | none => Except.error LexError.indexOutOfBounds

/-- `Lexer::is_eof`: `self.current + offset >= self.code_bytes.len()`. -/
def is_eof (s : Lexer) (offset : Nat) : Bool :=
  decide (s.code_bytes.length ≤ s.current + offset)

/-- `Lexer::is_eol`: in bounds and the current byte is `\n` or `\r`.
The source reads the current byte only after the `!is_eof(0)` guard, which is
exactly when `get?` returns `some`. -/
def is_eol (s : Lexer) : Bool :=
  match s.code_bytes.get? s.current with
  | some b => b == NEW_LINE || b == LINE_FEED
  | none => false

/-- `Lexer::advance`: increment `row` (resetting `col`) when the current byte
is a line break, else increment `col`; always increment `current`. -/
def advance (s : Lexer) : Lexer :=
  if is_eol s then
    { s with row := s.row + 1, col := 1, current := s.current + 1 }
  else
    { s with col := s.col + 1, current := s.current + 1 }

/-- `Lexer::lookup`: peek one ahead behind an `is_eof(1)` guard; on a match,
consume the peeked character. -/
def lookup (s : Lexer) (lookup_char : Nat) : Except LexError (Bool × Lexer) :=
  if !is_eof s 1 then
    match peek s with
    | Except.error e => Except.error e
    | Except.ok b =>
      if b == lookup_char then Except.ok (true, advance s) else Except.ok (false, s)
  else
    Except.ok (false, s)

/-- `self.tokens.push(t)`. -/
def push_token (s : Lexer) (t : Token) : Lexer :=
  { s with tokens := s.tokens ++ [t] }

/-- `Lexer::get_current_token_location`. -/
def get_current_token_location (s : Lexer) : TokenLocation :=
  { row := s.row, col := s.col }

/-- The `while` loop of `Lexer::eat_string`:
`while !is_eof(0) && current byte != '"' && !is_eol() { advance() }`.
`get? = some` is exactly the `!is_eof(0)` test. -/
def eat_string_go (fuel : Nat) (s : Lexer) : Lexer :=
  match fuel with
  | 0 => s
  | fuel + 1 =>
    match s.code_bytes.get? s.current with
    | some b => if b != 34 && !is_eol s then eat_string_go fuel (advance s) else s
    | none => s

/-- `Lexer::eat_string`. -/
def eat_string (s : Lexer) : Except LexError Lexer :=
  let str_start_col := s.col
  let str_start_row := s.row
  let s1 := advance s
  let str_start := s1.current
  let s2 := eat_string_go (s1.code_bytes.length + 1) s1
  if s2.current == s2.code_bytes.length then
    Except.error (LexError.unterminatedString str_start_row str_start_col)
  else
    match get_current_char_byte s2 with
    | Except.error e => Except.error e
    | Except.ok b =>
      if b != 34 then
        Except.error (LexError.unterminatedString str_start_row str_start_col)
      else
        match rangeSlice s2.code_bytes str_start s2.current with
        | Except.error e => Except.error e
        | Except.ok str_bytes =>
          Except.ok (push_token s2
            (Token.literal (get_current_token_location s2) (Literals.string str_bytes)))

/-- `Lexer::is_digit`: a decimal digit or the decimal point. -/
def is_digit (character : Nat) : Bool :=
  decide ((48 ≤ character ∧ character ≤ 57) ∨ character = 46)

/-- The `while` loop of `Lexer::eat_number`:
`while !is_eof(1) && is_digit(peek())`, breaking at a second decimal point
before consuming it.  `get? (current + 1) = some` is exactly `!is_eof(1)`. -/
def eat_number_go (fuel : Nat) (s : Lexer) (is_decimal_point_eaten : Bool) : Lexer :=
  match fuel with
  | 0 => s
  | fuel + 1 =>
    match s.code_bytes.get? (s.current + 1) with
    | some b =>
      if is_digit b then
        if b == 46 then
          if is_decimal_point_eaten then s
          else eat_number_go fuel (advance s) true
        else eat_number_go fuel (advance s) is_decimal_point_eaten
      else s
    | none => s

/-- `Lexer::eat_number`: record the start offset and position, run the
one-ahead-lookahead loop, and slice `code[num_start..current + 1]`. -/
def eat_number (s : Lexer) : Except LexError Lexer :=
  let num_start_col := s.col
  let num_start_row := s.row
  let num_start := s.current
  let t := eat_number_go (s.code_bytes.length + 1) s false
  match rangeSlice t.code_bytes num_start (t.current + 1) with
  | Except.error e => Except.error e
  | Except.ok num_bytes =>
    Except.ok (push_token t
      (Token.literal { row := num_start_row, col := num_start_col }
        (Literals.number num_bytes)))

/-- The `while` loop of `Lexer::eat_hash_single_line_comment`:
`while !is_eof(0) && !is_eol() { advance() }`. -/
def eat_hash_go (fuel : Nat) (s : Lexer) : Lexer :=
  match fuel with
  | 0 => s
  | fuel + 1 =>
    if !is_eof s 0 && !is_eol s then eat_hash_go fuel (advance s) else s

/-- `Lexer::eat_hash_single_line_comment`. -/
def eat_hash_single_line_comment (s : Lexer) : Lexer :=
  eat_hash_go (s.code_bytes.length + 1) s

/-- The `match self.get_current_char_byte()` dispatch in the body of the main
`lex` loop, for current byte `b`.  The final arm is the
`invalid token ... at row:col` panic. -/
def dispatch (s : Lexer) (b : Nat) : Except LexError Lexer :=
  if b == 32 then Except.ok s
  else if b == NEW_LINE || b == LINE_FEED then Except.ok (advance s)
  else if b == 43 then
    match lookup s 43 with
    | Except.error e => Except.error e
    | Except.ok (matched, s1) =>
      if matched then
        Except.ok (push_token s1
          (Token.operator (get_current_token_location s1) Operators.increment))
      else
        Except.ok (push_token s1
          (Token.operator (get_current_token_location s1) Operators.plus))
  else if b == 45 then
    match lookup s 45 with
    | Except.error e => Except.error e
    | Except.ok (matched, s1) =>
      if matched then
        Except.ok (push_token s1
          (Token.operator (get_current_token_location s1) Operators.decrement))
      else
        Except.ok (push_token s1
          (Token.operator (get_current_token_location s1) Operators.minus))
  else if b == 42 then
    Except.ok (push_token s (Token.operator (get_current_token_location s) Operators.star))
  else if b == 123 then
    Except.ok (push_token s (Token.openBrace (get_current_token_location s)))
  else if b == 125 then
    Except.ok (push_token s (Token.closeBrace (get_current_token_location s)))
  else if b == 40 then
    Except.ok (push_token s (Token.openParen (get_current_token_location s)))
  else if b == 41 then
    Except.ok (push_token s (Token.closeParen (get_current_token_location s)))
  else if b == 61 then
    Except.ok (push_token s (Token.operator (get_current_token_location s) Operators.assignment))
  else if b == 34 then eat_string s
  else if b == 35 then Except.ok (eat_hash_single_line_comment s)
  else if 48 ≤ b ∧ b ≤ 57 then eat_number s
  else Except.error (LexError.invalidCharacter b s.row s.col)

/-- The main `while self.current < code.len()` loop of `Lexer::lex`: read the
current byte, dispatch on it, then advance unconditionally.  The source's
`char_string` binding (the one-byte `&str` used only in the panic message) is
represented by the byte itself, per the design's single-byte-character
assumption. -/
def lex_go (fuel : Nat) (s : Lexer) : Except LexError Lexer :=
  match fuel with
  | 0 => Except.ok s
  | fuel + 1 =>
    if s.current < s.code_bytes.length then
      match get_current_char_byte s with
      | Except.error e => Except.error e
      | Except.ok b =>
        match dispatch s b with
        | Except.error e => Except.error e
        | Except.ok s1 => lex_go fuel (advance s1)
    else Except.ok s

/-- `Lexer::lex`: reset `tokens` and `current`, rebind the source buffer
(`row` and `col` are not reset), run the main loop, then push the `EOF`
token at the final position. -/
def lex (s : Lexer) (code : List Nat) : Except LexError Lexer :=
  let s0 : Lexer := { s with tokens := [], current := 0, code_bytes := code }
  match lex_go (code.length + 1) s0 with
  | Except.error e => Except.error e
  | Except.ok s1 => Except.ok (push_token s1 (Token.eof (get_current_token_location s1)))

end Lexer

/-- The token list returned by `lex` on a fresh `Lexer` instance. -/
def lexTokens (code : List Nat) : Except LexError (List Token) :=
  Except.map Lexer.tokens (Lexer.lex Lexer.new code)

/-- UTF-8 bytes of an ASCII string, for writing concrete inputs readably. -/
def strBytes (str : String) : List Nat :=
  str.toList.map Char.toNat

/-- `true` exactly for the `EOF` token variant. -/
def Token.isEofTok : Token → Bool
  | Token.eof _ => true
  | _ => false

/-- A token with its location erased: the token kind together with its
payload, used to compare the outputs of two scans position-insensitively. -/
inductive TokenShape where
  | operator (op : Operators)
  | openBrace
  | closeBrace
  | openParen
  | closeParen
  | literal (lit : Literals)
  | eofShape
deriving DecidableEq, Repr

/-- Erase the location of a token. -/
def Token.shape : Token → TokenShape
  | Token.operator _ op => TokenShape.operator op
  | Token.openBrace _ => TokenShape.openBrace
  | Token.closeBrace _ => TokenShape.closeBrace
  | Token.openParen _ => TokenShape.openParen
  | Token.closeParen _ => TokenShape.closeParen
  | Token.literal _ lit => TokenShape.literal lit
  | Token.eof _ => TokenShape.eofShape

/-- Two scanner states that agree on everything the scan's control flow and
payloads depend on: the source buffer, the cursor, and the shapes of the
tokens collected so far (`row`/`col` are free to differ). -/
def SimT (s t : Lexer) : Prop :=
  s.code_bytes = t.code_bytes ∧ s.current = t.current ∧
    s.tokens.map Token.shape = t.tokens.map Token.shape

/-- Relation between the results of two scans from `SimT`-related states:
both fail, or both succeed in `SimT`-related states. -/
def SimR : Except LexError Lexer → Except LexError Lexer → Prop
  | Except.error _, Except.error _ => True
  | Except.ok s, Except.ok t => SimT s t
  | _, _ => False

/-- The bytes the main dispatch loop recognizes as the start of a lexeme:
space, the two line breaks, the operator and punctuation characters, the
string quote, the comment hash, and the ASCII digits. -/
def recognized_start (b : Nat) : Bool :=
  b == 32 || b == NEW_LINE || b == LINE_FEED || b == 43 || b == 45 || b == 42 ||
    b == 123 || b == 125 || b == 40 || b == 41 || b == 61 || b == 34 || b == 35 ||
    (48 ≤ b && b ≤ 57)

/-- `false` exactly when the scan result is the modelled index panic. -/
def not_index_oob (r : Except LexError Lexer) : Bool :=
  match r with
  | Except.error LexError.indexOutOfBounds => false
  | _ => true

section Lemmas

open Lexer

theorem get?_some_lt {l : List Nat} {n b : Nat} (h : l.get? n = some b) :
    n < l.length := by
  by_contra hn
  rw [List.get?_eq_none.mpr (Nat.le_of_not_lt hn)] at h
  exact Option.noConfusion h

theorem lt_get?_some {l : List Nat} {n : Nat} (h : n < l.length) :
    ∃ b, l.get? n = some b :=
  ⟨l.get ⟨n, h⟩, List.get?_eq_get h⟩

@[simp] theorem advance_code_bytes (s : Lexer) :
    (advance s).code_bytes = s.code_bytes := by
  unfold advance; split <;> rfl

@[simp] theorem advance_current (s : Lexer) :
    (advance s).current = s.current + 1 := by
  unfold advance; split <;> rfl

@[simp] theorem advance_tokens (s : Lexer) :
    (advance s).tokens = s.tokens := by
  unfold advance; split <;> rfl

theorem advance_row_pos (s : Lexer) (h : 1 ≤ s.row) : 1 ≤ (advance s).row := by
  unfold advance; split
  · exact Nat.le_succ_of_le h
  · exact h

theorem advance_col_pos (s : Lexer) : 1 ≤ (advance s).col := by
  unfold advance; split
  · exact Nat.le_refl 1
  · show 1 ≤ s.col + 1
    omega

theorem advance_not_eol (s : Lexer) (h : is_eol s = false) :
    advance s = { s with col := s.col + 1, current := s.current + 1 } := by
  unfold advance
  rw [h]
  rfl

/-- Combined bookkeeping facts about the `eat_string` loop: it never touches
the source buffer or the token list, only moves the cursor forward, keeps it
within the buffer, and keeps `row`/`col` positive. -/
theorem eat_string_go_spec (f : Nat) (s : Lexer) :
    (eat_string_go f s).code_bytes = s.code_bytes ∧
    (eat_string_go f s).tokens = s.tokens ∧
    s.current ≤ (eat_string_go f s).current ∧
    (eat_string_go f s).current ≤ max s.current s.code_bytes.length ∧
    (1 ≤ s.row → 1 ≤ (eat_string_go f s).row) ∧
    (1 ≤ s.col → 1 ≤ (eat_string_go f s).col) := by
  induction f generalizing s with
  | zero =>
    refine ⟨rfl, rfl, Nat.le_refl _, Nat.le_max_left _ _, fun h => h, fun h => h⟩
  | succ f ih =>
    have triv : s.code_bytes = s.code_bytes ∧ s.tokens = s.tokens ∧
        s.current ≤ s.current ∧ s.current ≤ max s.current s.code_bytes.length ∧
        (1 ≤ s.row → 1 ≤ s.row) ∧ (1 ≤ s.col → 1 ≤ s.col) :=
      ⟨rfl, rfl, Nat.le_refl _, Nat.le_max_left _ _, fun h => h, fun h => h⟩
    unfold eat_string_go
    split
    · split
      · rename_i b hb hc
        have hlt : s.current < s.code_bytes.length := get?_some_lt hb
        obtain ⟨h1, h2, h3, h4, h5, h6⟩ := ih (advance s)
        refine ⟨by simpa using h1, by simpa using h2, ?_, ?_, ?_, ?_⟩
        · exact Nat.le_trans (Nat.le_succ _) (by simpa using h3)
        · have hm : max (advance s).current (advance s).code_bytes.length ≤
              max s.current s.code_bytes.length := by
            simp only [advance_current, advance_code_bytes]
            omega
          exact Nat.le_trans h4 hm
        · intro h; exact h5 (advance_row_pos s h)
        · intro _; exact h6 (advance_col_pos s)
      · exact triv
    · exact triv

/-- Combined bookkeeping facts about the `eat_number` loop: it never touches
the source buffer or the token list, only moves the cursor forward, keeps
`cursor + 1` within the buffer, and keeps `row`/`col` positive. -/
theorem eat_number_go_spec (f : Nat) (s : Lexer) (e : Bool) :
    (eat_number_go f s e).code_bytes = s.code_bytes ∧
    (eat_number_go f s e).tokens = s.tokens ∧
    s.current ≤ (eat_number_go f s e).current ∧
    (eat_number_go f s e).current + 1 ≤ max (s.current + 1) s.code_bytes.length ∧
    (1 ≤ s.row → 1 ≤ (eat_number_go f s e).row) ∧
    (1 ≤ s.col → 1 ≤ (eat_number_go f s e).col) := by
  induction f generalizing s e with
  | zero =>
    refine ⟨rfl, rfl, Nat.le_refl _, Nat.le_max_left _ _, fun h => h, fun h => h⟩
  | succ f ih =>
    have triv : s.code_bytes = s.code_bytes ∧ s.tokens = s.tokens ∧
        s.current ≤ s.current ∧ s.current + 1 ≤ max (s.current + 1) s.code_bytes.length ∧
        (1 ≤ s.row → 1 ≤ s.row) ∧ (1 ≤ s.col → 1 ≤ s.col) :=
      ⟨rfl, rfl, Nat.le_refl _, Nat.le_max_left _ _, fun h => h, fun h => h⟩
    have step : s.current + 1 < s.code_bytes.length →
        ∀ e', (eat_number_go f (advance s) e').code_bytes = s.code_bytes ∧
        (eat_number_go f (advance s) e').tokens = s.tokens ∧
        s.current ≤ (eat_number_go f (advance s) e').current ∧
        (eat_number_go f (advance s) e').current + 1 ≤
          max (s.current + 1) s.code_bytes.length ∧
        (1 ≤ s.row → 1 ≤ (eat_number_go f (advance s) e').row) ∧
        (1 ≤ s.col → 1 ≤ (eat_number_go f (advance s) e').col) := by
      intro hlt e'
      obtain ⟨h1, h2, h3, h4, h5, h6⟩ := ih (advance s) e'
      refine ⟨by simpa using h1, by simpa using h2, ?_, ?_, ?_, ?_⟩
      · exact Nat.le_trans (Nat.le_succ _) (by simpa using h3)
      · have hm : max ((advance s).current + 1) (advance s).code_bytes.length ≤
            max (s.current + 1) s.code_bytes.length := by
          simp only [advance_current, advance_code_bytes]
          omega
        exact Nat.le_trans h4 hm
      · intro h; exact h5 (advance_row_pos s h)
      · intro _; exact h6 (advance_col_pos s)
    unfold eat_number_go
    split
    · rename_i b hb
      have hlt : s.current + 1 < s.code_bytes.length := get?_some_lt hb
      split
      · split
        · split
          · exact triv
          · exact step hlt true
        · exact step hlt e
      · exact triv
    · exact triv

/-- Combined bookkeeping facts about the comment-skipping loop. -/
theorem eat_hash_go_spec (f : Nat) (s : Lexer) :
    (eat_hash_go f s).code_bytes = s.code_bytes ∧
    (eat_hash_go f s).tokens = s.tokens ∧
    s.current ≤ (eat_hash_go f s).current ∧
    (eat_hash_go f s).current ≤ max s.current s.code_bytes.length ∧
    (1 ≤ s.row → 1 ≤ (eat_hash_go f s).row) ∧
    (1 ≤ s.col → 1 ≤ (eat_hash_go f s).col) := by
  induction f generalizing s with
  | zero =>
    refine ⟨rfl, rfl, Nat.le_refl _, Nat.le_max_left _ _, fun h => h, fun h => h⟩
  | succ f ih =>
    have triv : s.code_bytes = s.code_bytes ∧ s.tokens = s.tokens ∧
        s.current ≤ s.current ∧ s.current ≤ max s.current s.code_bytes.length ∧
        (1 ≤ s.row → 1 ≤ s.row) ∧ (1 ≤ s.col → 1 ≤ s.col) :=
      ⟨rfl, rfl, Nat.le_refl _, Nat.le_max_left _ _, fun h => h, fun h => h⟩
    unfold eat_hash_go
    split
    · rename_i hc
      have hlt : s.current < s.code_bytes.length := by
        simp only [Bool.and_eq_true, Bool.not_eq_true'] at hc
        have h0 := hc.1
        simp only [is_eof, decide_eq_false_iff_not, Nat.not_le, Nat.add_zero] at h0
        exact h0
      obtain ⟨h1, h2, h3, h4, h5, h6⟩ := ih (advance s)
      refine ⟨by simpa using h1, by simpa using h2, ?_, ?_, ?_, ?_⟩
      · exact Nat.le_trans (Nat.le_succ _) (by simpa using h3)
      · have hm : max (advance s).current (advance s).code_bytes.length ≤
            max s.current s.code_bytes.length := by
          simp only [advance_current, advance_code_bytes]
          omega
        exact Nat.le_trans h4 hm
      · intro h; exact h5 (advance_row_pos s h)
      · intro _; exact h6 (advance_col_pos s)
    · exact triv

@[simp] theorem push_token_code_bytes (s : Lexer) (t : Token) :
    (push_token s t).code_bytes = s.code_bytes := rfl

@[simp] theorem push_token_current (s : Lexer) (t : Token) :
    (push_token s t).current = s.current := rfl

@[simp] theorem push_token_row (s : Lexer) (t : Token) :
    (push_token s t).row = s.row := rfl

@[simp] theorem push_token_col (s : Lexer) (t : Token) :
    (push_token s t).col = s.col := rfl

@[simp] theorem push_token_tokens (s : Lexer) (t : Token) :
    (push_token s t).tokens = s.tokens ++ [t] := rfl

theorem not_is_eof_lt {s : Lexer} {n : Nat} (h : (!is_eof s n) = true) :
    s.current + n < s.code_bytes.length := by
  rw [Bool.not_eq_true'] at h
  simp only [is_eof, decide_eq_false_iff_not, Nat.not_le] at h
  exact h

theorem get_current_of_lt {s : Lexer} (h : s.current < s.code_bytes.length) :
    ∃ b, get_current_char_byte s = Except.ok b ∧ s.code_bytes.get? s.current = some b := by
  obtain ⟨b, hb⟩ := lt_get?_some h
  exact ⟨b, by simp only [get_current_char_byte, hb], hb⟩

/-- `lookup` never fails: its `peek` runs only behind the `is_eof(1)` guard. -/
theorem lookup_not_error (s : Lexer) (c : Nat) (e : LexError) :
    lookup s c ≠ Except.error e := by
  intro h
  unfold lookup at h
  split at h
  · rename_i hg
    obtain ⟨b, hb⟩ := lt_get?_some (not_is_eof_lt hg)
    simp only [peek, hb] at h
    split at h <;> exact Except.noConfusion h
  · exact Except.noConfusion h

/-- The two possible outcomes of `lookup`: no match (state unchanged) or a
match (one character consumed, which was in bounds). -/
theorem lookup_cases {s : Lexer} {c : Nat} {r : Bool × Lexer}
    (h : lookup s c = Except.ok r) :
    r = (false, s) ∨ (r = (true, advance s) ∧ s.current + 1 < s.code_bytes.length) := by
  unfold lookup at h
  split at h
  · rename_i hg
    have hlt := not_is_eof_lt hg
    obtain ⟨b, hb⟩ := lt_get?_some hlt
    simp only [peek, hb] at h
    split at h
    · exact Or.inr ⟨(Except.ok.inj h).symm, hlt⟩
    · exact Or.inl (Except.ok.inj h).symm
  · exact Or.inl (Except.ok.inj h).symm

/-- `eat_string` with the `let`-bound loop result made explicit. -/
theorem eat_string_def (s : Lexer) {t : Lexer}
    (ht : eat_string_go ((advance s).code_bytes.length + 1) (advance s) = t) :
    eat_string s =
      (if t.current == t.code_bytes.length then
        Except.error (LexError.unterminatedString s.row s.col)
      else
        match get_current_char_byte t with
        | Except.error e => Except.error e
        | Except.ok b =>
          if b != 34 then
            Except.error (LexError.unterminatedString s.row s.col)
          else
            match rangeSlice t.code_bytes (advance s).current t.current with
            | Except.error e => Except.error e
            | Except.ok str_bytes =>
              Except.ok (push_token t
                (Token.literal (get_current_token_location t) (Literals.string str_bytes)))) := by
  subst ht
  rfl

/-- When entered in bounds, `eat_string` either pushes exactly one string
literal token, or fails with `unterminatedString` at the entry position. -/
theorem eat_string_result (s : Lexer) (hcur : s.current < s.code_bytes.length) :
    (∃ s1, eat_string s = Except.ok s1 ∧ s1.code_bytes = s.code_bytes ∧
      s.current ≤ s1.current ∧ s1.current ≤ s.code_bytes.length ∧
      (∃ p bs, s1.tokens = s.tokens ++ [Token.literal p (Literals.string bs)]) ∧
      (1 ≤ s.row → 1 ≤ s1.row) ∧ (1 ≤ s.col → 1 ≤ s1.col)) ∨
    eat_string s = Except.error (LexError.unterminatedString s.row s.col) := by
  obtain ⟨g1, g2, g3, g4, g5, g6⟩ :=
    eat_string_go_spec ((advance s).code_bytes.length + 1) (advance s)
  rw [eat_string_def s rfl]
  generalize hts : eat_string_go ((advance s).code_bytes.length + 1) (advance s) = t
  rw [hts] at g1 g2 g3 g4 g5 g6
  have hcode : t.code_bytes = s.code_bytes := by rw [g1, advance_code_bytes]
  have htok : t.tokens = s.tokens := by rw [g2, advance_tokens]
  have hmono : s.current + 1 ≤ t.current := by
    have h := g3; rwa [advance_current] at h
  have hbound : t.current ≤ s.code_bytes.length := by
    have h := g4
    rw [advance_current, advance_code_bytes] at h
    omega
  by_cases hend : (t.current == t.code_bytes.length) = true
  · rw [if_pos hend]
    exact Or.inr rfl
  · rw [if_neg hend]
    have hlt2 : t.current < t.code_bytes.length := by
      have hne : t.current ≠ t.code_bytes.length := by simpa using hend
      rw [hcode] at hne ⊢
      omega
    obtain ⟨b, hgc, hb⟩ := get_current_of_lt hlt2
    simp only [hgc]
    by_cases hq : (b != 34) = true
    · rw [if_pos hq]
      exact Or.inr rfl
    · rw [if_neg hq]
      have hslice : rangeSlice t.code_bytes (advance s).current t.current =
          Except.ok (listSlice t.code_bytes (advance s).current t.current) := by
        unfold rangeSlice
        rw [if_pos]
        exact ⟨by rw [advance_current]; exact hmono, le_of_lt hlt2⟩
      simp only [hslice]
      refine Or.inl ⟨_, rfl, ?_, ?_, ?_, ?_, ?_, ?_⟩
      · simpa using hcode
      · show s.current ≤ t.current
        omega
      · show t.current ≤ s.code_bytes.length
        exact hbound
      · exact ⟨get_current_token_location t, listSlice t.code_bytes (advance s).current t.current,
          by rw [push_token_tokens, htok]⟩
      · intro hr
        show 1 ≤ t.row
        exact g5 (advance_row_pos s hr)
      · intro hc
        show 1 ≤ t.col
        exact g6 (advance_col_pos s)

/-- `eat_number` with the `let`-bound loop result made explicit. -/
theorem eat_number_def (s : Lexer) {t : Lexer}
    (ht : eat_number_go (s.code_bytes.length + 1) s false = t) :
    eat_number s =
      match rangeSlice t.code_bytes s.current (t.current + 1) with
      | Except.error e => Except.error e
      | Except.ok num_bytes =>
        Except.ok (push_token t
          (Token.literal { row := s.row, col := s.col } (Literals.number num_bytes))) := by
  subst ht
  rfl

/-- When entered in bounds, `eat_number` always succeeds, pushing one number
literal token whose payload runs from the start offset to one past the final
cursor of the lookahead loop, recorded at the entry position. -/
theorem eat_number_eq (s : Lexer) (hcur : s.current < s.code_bytes.length) :
    eat_number s = Except.ok (push_token (eat_number_go (s.code_bytes.length + 1) s false)
      (Token.literal { row := s.row, col := s.col }
        (Literals.number (listSlice s.code_bytes s.current
          ((eat_number_go (s.code_bytes.length + 1) s false).current + 1))))) := by
  obtain ⟨g1, g2, g3, g4, g5, g6⟩ := eat_number_go_spec (s.code_bytes.length + 1) s false
  rw [eat_number_def s rfl]
  have hslice : rangeSlice (eat_number_go (s.code_bytes.length + 1) s false).code_bytes
      s.current ((eat_number_go (s.code_bytes.length + 1) s false).current + 1) =
      Except.ok (listSlice s.code_bytes s.current
        ((eat_number_go (s.code_bytes.length + 1) s false).current + 1)) := by
    unfold rangeSlice
    rw [if_pos, g1]
    constructor
    · omega
    · rw [g1]
      omega
  simp only [hslice]

/-- Every byte is one of the dispatch table's cases or unrecognized. -/
theorem byte_cases (b : Nat) :
    b = 32 ∨ b = 10 ∨ b = 13 ∨ b = 43 ∨ b = 45 ∨ b = 42 ∨ b = 123 ∨ b = 125 ∨
    b = 40 ∨ b = 41 ∨ b = 61 ∨ b = 34 ∨ b = 35 ∨ (48 ≤ b ∧ b ≤ 57) ∨
    recognized_start b = false := by
  cases h : recognized_start b
  · iterate 14 right
    rfl
  · simp only [recognized_start, Bool.or_eq_true, beq_iff_eq, Bool.and_eq_true,
      decide_eq_true_eq, NEW_LINE, LINE_FEED] at h
    tauto

/-- On a digit byte, the dispatch table runs `eat_number`. -/
theorem dispatch_digit {s : Lexer} {b : Nat} (hdig : 48 ≤ b ∧ b ≤ 57) :
    dispatch s b = eat_number s := by
  unfold dispatch
  rw [if_neg (by simp only [beq_iff_eq]; omega),
    if_neg (by simp only [Bool.or_eq_true, beq_iff_eq, NEW_LINE, LINE_FEED]; omega),
    if_neg (by simp only [beq_iff_eq]; omega),
    if_neg (by simp only [beq_iff_eq]; omega),
    if_neg (by simp only [beq_iff_eq]; omega),
    if_neg (by simp only [beq_iff_eq]; omega),
    if_neg (by simp only [beq_iff_eq]; omega),
    if_neg (by simp only [beq_iff_eq]; omega),
    if_neg (by simp only [beq_iff_eq]; omega),
    if_neg (by simp only [beq_iff_eq]; omega),
    if_neg (by simp only [beq_iff_eq]; omega),
    if_neg (by simp only [beq_iff_eq]; omega),
    if_pos hdig]

/-- On an unrecognized byte, the dispatch table fails with `invalidCharacter`
carrying the byte and the current position. -/
theorem dispatch_unrecognized {s : Lexer} {b : Nat} (h : recognized_start b = false) :
    dispatch s b = Except.error (LexError.invalidCharacter b s.row s.col) := by
  simp only [recognized_start, Bool.or_eq_false_iff, beq_eq_false_iff_ne, ne_eq,
    Bool.and_eq_false_iff, decide_eq_false_iff_not, Nat.not_le, NEW_LINE, LINE_FEED] at h
  unfold dispatch
  rw [if_neg (by simp only [beq_iff_eq]; omega),
    if_neg (by simp only [Bool.or_eq_true, beq_iff_eq, NEW_LINE, LINE_FEED]; omega),
    if_neg (by simp only [beq_iff_eq]; omega),
    if_neg (by simp only [beq_iff_eq]; omega),
    if_neg (by simp only [beq_iff_eq]; omega),
    if_neg (by simp only [beq_iff_eq]; omega),
    if_neg (by simp only [beq_iff_eq]; omega),
    if_neg (by simp only [beq_iff_eq]; omega),
    if_neg (by simp only [beq_iff_eq]; omega),
    if_neg (by simp only [beq_iff_eq]; omega),
    if_neg (by simp only [beq_iff_eq]; omega),
    if_neg (by simp only [beq_iff_eq]; omega),
    if_neg (by omega)]

/-- Properties of one successful dispatch step entered in bounds: the buffer
is untouched, the cursor does not move backwards and stays in bounds, only
non-`EOF` tokens are appended, and `row`/`col` stay positive; a failing
dispatch step never fails with the modelled index panic. -/
theorem dispatch_result (s : Lexer) (b : Nat) (hcur : s.current < s.code_bytes.length) :
    (∃ s1, dispatch s b = Except.ok s1 ∧ s1.code_bytes = s.code_bytes ∧
      s.current ≤ s1.current ∧ s1.current ≤ s.code_bytes.length ∧
      (∃ ns, s1.tokens = s.tokens ++ ns ∧ ∀ t ∈ ns, t.isEofTok = false) ∧
      (1 ≤ s.row → 1 ≤ s1.row) ∧ (1 ≤ s.col → 1 ≤ s1.col)) ∨
    (∃ e, dispatch s b = Except.error e ∧ e ≠ LexError.indexOutOfBounds) := by
  have hkeep : ∀ tok : Token, tok.isEofTok = false →
      s.code_bytes = s.code_bytes ∧ s.current ≤ s.current ∧
      s.current ≤ s.code_bytes.length ∧
      (∃ ns, s.tokens ++ [tok] = s.tokens ++ ns ∧ ∀ t ∈ ns, t.isEofTok = false) ∧
      (1 ≤ s.row → 1 ≤ s.row) ∧ (1 ≤ s.col → 1 ≤ s.col) := by
    intro tok htok
    refine ⟨rfl, Nat.le_refl _, le_of_lt hcur, ⟨[tok], rfl, ?_⟩, fun h => h, fun h => h⟩
    intro t ht
    rw [List.mem_singleton.mp ht]
    exact htok
  have hadv : ∀ tok : Token, tok.isEofTok = false → s.current + 1 < s.code_bytes.length →
      (push_token (advance s) tok).code_bytes = s.code_bytes ∧
      s.current ≤ (push_token (advance s) tok).current ∧
      (push_token (advance s) tok).current ≤ s.code_bytes.length ∧
      (∃ ns, (push_token (advance s) tok).tokens = s.tokens ++ ns ∧
        ∀ t ∈ ns, t.isEofTok = false) ∧
      (1 ≤ s.row → 1 ≤ (push_token (advance s) tok).row) ∧
      (1 ≤ s.col → 1 ≤ (push_token (advance s) tok).col) := by
    intro tok htok hlt
    refine ⟨by simp, ?_, ?_, ⟨[tok], by simp, ?_⟩, ?_, ?_⟩
    · simp only [push_token_current, advance_current]
      omega
    · simp only [push_token_current, advance_current]
      omega
    · intro t ht
      rw [List.mem_singleton.mp ht]
      exact htok
    · intro h
      simpa using advance_row_pos s h
    · intro _
      simpa using advance_col_pos s
  have hplus : ∀ (c : Nat) (opm opn : Operators),
      (∃ s1, (match lookup s c with
        | Except.error e => Except.error e
        | Except.ok (matched, s2) =>
          if matched then
            Except.ok (push_token s2 (Token.operator (get_current_token_location s2) opm))
          else
            Except.ok (push_token s2 (Token.operator (get_current_token_location s2) opn)))
          = Except.ok s1 ∧
        s1.code_bytes = s.code_bytes ∧ s.current ≤ s1.current ∧
        s1.current ≤ s.code_bytes.length ∧
        (∃ ns, s1.tokens = s.tokens ++ ns ∧ ∀ t ∈ ns, t.isEofTok = false) ∧
        (1 ≤ s.row → 1 ≤ s1.row) ∧ (1 ≤ s.col → 1 ≤ s1.col)) := by
    intro c opm opn
    cases hlk : lookup s c with
    | error e => exact absurd hlk (lookup_not_error s c e)
    | ok rr =>
      obtain ⟨m, s2⟩ := rr
      rcases lookup_cases hlk with hre | ⟨hre, hlt⟩ <;>
        simp only [Prod.mk.injEq] at hre <;> obtain ⟨hm, hs2⟩ := hre <;>
        subst hm <;> subst hs2
      · exact ⟨_, rfl, hkeep _ rfl⟩
      · exact ⟨_, rfl, hadv _ rfl hlt⟩
  rcases byte_cases b with rfl | rfl | rfl | rfl | rfl | rfl | rfl | rfl | rfl | rfl |
    rfl | rfl | rfl | hdig | hnr
  · have hd : dispatch s 32 = Except.ok s := rfl
    rw [hd]
    exact Or.inl ⟨s, rfl, rfl, Nat.le_refl _, le_of_lt hcur,
      ⟨[], by simp, by simp⟩, fun h => h, fun h => h⟩
  · have hd : dispatch s 10 = Except.ok (advance s) := rfl
    rw [hd]
    refine Or.inl ⟨advance s, rfl, by simp, by simp, ?_, ⟨[], by simp, by simp⟩, ?_, ?_⟩
    · simp only [advance_current]
      omega
    · intro h
      exact advance_row_pos s h
    · intro _
      exact advance_col_pos s
  · have hd : dispatch s 13 = Except.ok (advance s) := rfl
    rw [hd]
    refine Or.inl ⟨advance s, rfl, by simp, by simp, ?_, ⟨[], by simp, by simp⟩, ?_, ?_⟩
    · simp only [advance_current]
      omega
    · intro h
      exact advance_row_pos s h
    · intro _
      exact advance_col_pos s
  · have hd : dispatch s 43 =
        (match lookup s 43 with
        | Except.error e => Except.error e
        | Except.ok (matched, s2) =>
          if matched then
            Except.ok (push_token s2
              (Token.operator (get_current_token_location s2) Operators.increment))
          else
            Except.ok (push_token s2
              (Token.operator (get_current_token_location s2) Operators.plus))) := rfl
    rw [hd]
    exact Or.inl (hplus 43 Operators.increment Operators.plus)
  · have hd : dispatch s 45 =
        (match lookup s 45 with
        | Except.error e => Except.error e
        | Except.ok (matched, s2) =>
          if matched then
            Except.ok (push_token s2
              (Token.operator (get_current_token_location s2) Operators.decrement))
          else
            Except.ok (push_token s2
              (Token.operator (get_current_token_location s2) Operators.minus))) := rfl
    rw [hd]
    exact Or.inl (hplus 45 Operators.decrement Operators.minus)
  · have hd : dispatch s 42 = Except.ok (push_token s
        (Token.operator (get_current_token_location s) Operators.star)) := rfl
    rw [hd]
    exact Or.inl ⟨_, rfl, hkeep _ rfl⟩
  · have hd : dispatch s 123 = Except.ok (push_token s
        (Token.openBrace (get_current_token_location s))) := rfl
    rw [hd]
    exact Or.inl ⟨_, rfl, hkeep _ rfl⟩
  · have hd : dispatch s 125 = Except.ok (push_token s
        (Token.closeBrace (get_current_token_location s))) := rfl
    rw [hd]
    exact Or.inl ⟨_, rfl, hkeep _ rfl⟩
  · have hd : dispatch s 40 = Except.ok (push_token s
        (Token.openParen (get_current_token_location s))) := rfl
    rw [hd]
    exact Or.inl ⟨_, rfl, hkeep _ rfl⟩
  · have hd : dispatch s 41 = Except.ok (push_token s
        (Token.closeParen (get_current_token_location s))) := rfl
    rw [hd]
    exact Or.inl ⟨_, rfl, hkeep _ rfl⟩
  · have hd : dispatch s 61 = Except.ok (push_token s
        (Token.operator (get_current_token_location s) Operators.assignment)) := rfl
    rw [hd]
    exact Or.inl ⟨_, rfl, hkeep _ rfl⟩
  · have hd : dispatch s 34 = eat_string s := rfl
    rw [hd]
    rcases eat_string_result s hcur with ⟨s1, heq, p1, p2, p3, ⟨p, bs, p4⟩, p5, p6⟩ | herr
    · refine Or.inl ⟨s1, heq, p1, p2, p3,
        ⟨[Token.literal p (Literals.string bs)], p4, ?_⟩, p5, p6⟩
      intro t ht
      rw [List.mem_singleton.mp ht]
      rfl
    · exact Or.inr ⟨_, herr, fun hc => LexError.noConfusion hc⟩
  · have hd : dispatch s 35 = Except.ok (eat_hash_single_line_comment s) := rfl
    rw [hd]
    obtain ⟨g1, g2, g3, g4, g5, g6⟩ := eat_hash_go_spec (s.code_bytes.length + 1) s
    refine Or.inl ⟨_, rfl, ?_, ?_, ?_, ?_, ?_, ?_⟩
    · show (eat_hash_go (s.code_bytes.length + 1) s).code_bytes = s.code_bytes
      exact g1
    · exact g3
    · show (eat_hash_go (s.code_bytes.length + 1) s).current ≤ s.code_bytes.length
      omega
    · refine ⟨[], ?_, by simp⟩
      show (eat_hash_go (s.code_bytes.length + 1) s).tokens = s.tokens ++ []
      rw [g2, List.append_nil]
    · exact g5
    · exact g6
  · rw [dispatch_digit hdig]
    obtain ⟨g1, g2, g3, g4, g5, g6⟩ := eat_number_go_spec (s.code_bytes.length + 1) s false
    rw [eat_number_eq s hcur]
    refine Or.inl ⟨_, rfl, by simpa using g1, ?_, ?_,
      ⟨[Token.literal { row := s.row, col := s.col }
        (Literals.number (listSlice s.code_bytes s.current
          ((eat_number_go (s.code_bytes.length + 1) s false).current + 1)))], ?_, ?_⟩, ?_, ?_⟩
    · simpa using g3
    · simp only [push_token_current]
      omega
    · rw [push_token_tokens, g2]
    · intro t ht
      rw [List.mem_singleton.mp ht]
      rfl
    · intro h
      simpa using g5 h
    · intro h
      simpa using g6 h
  · rw [dispatch_unrecognized hnr]
    exact Or.inr ⟨_, rfl, fun hc => LexError.noConfusion hc⟩

theorem dispatch_ok_spec {s : Lexer} {b : Nat} {s1 : Lexer}
    (hcur : s.current < s.code_bytes.length) (h : dispatch s b = Except.ok s1) :
    s1.code_bytes = s.code_bytes ∧ s.current ≤ s1.current ∧
    s1.current ≤ s.code_bytes.length ∧
    (∃ ns, s1.tokens = s.tokens ++ ns ∧ ∀ t ∈ ns, t.isEofTok = false) ∧
    (1 ≤ s.row → 1 ≤ s1.row) ∧ (1 ≤ s.col → 1 ≤ s1.col) := by
  rcases dispatch_result s b hcur with ⟨s1', heq, props⟩ | ⟨e, heq, _⟩
  · rw [heq] at h
    obtain rfl := Except.ok.inj h
    exact props
  · rw [heq] at h
    exact Except.noConfusion h

theorem dispatch_no_oob {s : Lexer} {b : Nat} (hcur : s.current < s.code_bytes.length) :
    dispatch s b ≠ Except.error LexError.indexOutOfBounds := by
  rcases dispatch_result s b hcur with ⟨s1, heq, _⟩ | ⟨e, heq, hne⟩
  · rw [heq]
    exact fun hc => Except.noConfusion hc
  · rw [heq]
    intro hc
    exact hne (Except.error.inj hc)

/-- `lex` with the `let`-bound reset state made explicit. -/
theorem lex_eq (s : Lexer) (code : List Nat) :
    lex s code =
      match lex_go (code.length + 1)
          { s with tokens := [], current := 0, code_bytes := code } with
      | Except.error e => Except.error e
      | Except.ok s1 =>
        Except.ok (push_token s1 (Token.eof (get_current_token_location s1))) := rfl

/-- Facts about a completed run of the main loop: the buffer is untouched,
the cursor does not move backwards and exceeds the buffer length by at most
one, only non-`EOF` tokens are appended, and `row`/`col` stay positive. -/
theorem lex_go_ok_spec (f : Nat) : ∀ {s s' : Lexer}, lex_go f s = Except.ok s' →
    s'.code_bytes = s.code_bytes ∧ s.current ≤ s'.current ∧
    (s.current ≤ s.code_bytes.length + 1 → s'.current ≤ s.code_bytes.length + 1) ∧
    (∃ ns, s'.tokens = s.tokens ++ ns ∧ ∀ t ∈ ns, t.isEofTok = false) ∧
    (1 ≤ s.row → 1 ≤ s'.row) ∧ (1 ≤ s.col → 1 ≤ s'.col) := by
  induction f with
  | zero =>
    intro s s' h
    obtain rfl := Except.ok.inj h
    exact ⟨rfl, Nat.le_refl _, fun hh => hh, ⟨[], by simp, by simp⟩,
      fun hh => hh, fun hh => hh⟩
  | succ f ih =>
    intro s s' h
    unfold lex_go at h
    split at h
    · rename_i hguard
      cases hgc : get_current_char_byte s with
      | error e =>
        simp only [hgc] at h
        exact Except.noConfusion h
      | ok b =>
        simp only [hgc] at h
        cases hd : dispatch s b with
        | error e =>
          simp only [hd] at h
          exact Except.noConfusion h
        | ok s1 =>
          simp only [hd] at h
          obtain ⟨p1, p2, p3, ⟨ns1, hns1, hnsf1⟩, p5, p6⟩ := dispatch_ok_spec hguard hd
          obtain ⟨i1, i2, i3, ⟨ns2, hns2, hnsf2⟩, i5, i6⟩ := ih h
          refine ⟨?_, ?_, ?_, ?_, ?_, ?_⟩
          · rw [i1, advance_code_bytes, p1]
          · have h1 : s1.current ≤ (advance s1).current := by
              rw [advance_current]
              exact Nat.le_succ _
            exact Nat.le_trans p2 (Nat.le_trans h1 i2)
          · intro _
            have hstart : (advance s1).current ≤ (advance s1).code_bytes.length + 1 := by
              rw [advance_current, advance_code_bytes, p1]
              omega
            have hend := i3 hstart
            rw [advance_code_bytes, p1] at hend
            exact hend
          · refine ⟨ns1 ++ ns2, ?_, ?_⟩
            · rw [hns2, advance_tokens, hns1, List.append_assoc]
            · intro t ht
              rcases List.mem_append.mp ht with hm | hm
              · exact hnsf1 t hm
              · exact hnsf2 t hm
          · intro hr
            exact i5 (advance_row_pos s1 (p5 hr))
          · intro hc
            exact i6 (advance_col_pos s1)
    · obtain rfl := Except.ok.inj h
      exact ⟨rfl, Nat.le_refl _, fun hh => hh, ⟨[], by simp, by simp⟩,
        fun hh => hh, fun hh => hh⟩

/-- The main loop never fails with the modelled index panic: every read is
guarded. -/
theorem lex_go_no_oob (f : Nat) : ∀ s : Lexer,
    lex_go f s ≠ Except.error LexError.indexOutOfBounds := by
  induction f with
  | zero =>
    intro s h
    exact Except.noConfusion h
  | succ f ih =>
    intro s h
    unfold lex_go at h
    split at h
    · rename_i hguard
      cases hgc : get_current_char_byte s with
      | error e =>
        obtain ⟨b, hb, _⟩ := get_current_of_lt hguard
        rw [hgc] at hb
        exact Except.noConfusion hb
      | ok b =>
        simp only [hgc] at h
        cases hd : dispatch s b with
        | error e =>
          simp only [hd] at h
          obtain rfl := Except.error.inj h
          exact dispatch_no_oob hguard hd
        | ok s1 =>
          simp only [hd] at h
          exact ih (advance s1) h
    · exact Except.noConfusion h

theorem lexer_eq_of_fields {a b : Lexer} (h1 : a.row = b.row) (h2 : a.col = b.col)
    (h3 : a.current = b.current) (h4 : a.code_bytes = b.code_bytes)
    (h5 : a.tokens = b.tokens) : a = b := by
  cases a
  cases b
  rw [Lexer.mk.injEq]
  exact ⟨h1, h2, h3, h4, h5⟩

/-- Walking lemma for the `eat_string` loop: if every byte strictly before
position `j` (from the current cursor on) is neither a quote nor a line
break, and position `j` is the end of input, a quote, or a line break, then
the loop stops exactly at `j`, having added `j - cursor` columns. -/
theorem eat_string_go_walk (n : Nat) : ∀ (f : Nat) (s : Lexer) (j : Nat),
    j - s.current = n → s.current ≤ j → j ≤ s.code_bytes.length →
    j - s.current ≤ f →
    (∀ k, k < j → s.current ≤ k → s.code_bytes.get? k ≠ some 34 ∧
      s.code_bytes.get? k ≠ some 10 ∧ s.code_bytes.get? k ≠ some 13) →
    (j = s.code_bytes.length ∨ s.code_bytes.get? j = some 34 ∨
      s.code_bytes.get? j = some 10 ∨ s.code_bytes.get? j = some 13) →
    eat_string_go f s = { s with current := j, col := s.col + (j - s.current) } := by
  induction n with
  | zero =>
    intro f s j hn hle hjlen hf hmid hstop
    have hj : j = s.current := by omega
    subst hj
    have hrhs :
        ({ s with current := s.current, col := s.col + (s.current - s.current) } : Lexer)
          = s := by
      refine lexer_eq_of_fields rfl ?_ rfl rfl rfl
      show s.col + (s.current - s.current) = s.col
      omega
    rw [hrhs]
    cases f with
    | zero => rfl
    | succ f =>
      unfold eat_string_go
      rcases hstop with hstop | hstop | hstop | hstop
      · have hnone : s.code_bytes.get? s.current = none := by
          rw [List.get?_eq_none]
          omega
        rw [hnone]
      · rw [hstop]
        rfl
      · simp only [hstop]
        have hisle : is_eol s = true := by
          unfold is_eol
          rw [hstop]
          rfl
        rw [hisle]
        rfl
      · simp only [hstop]
        have hisle : is_eol s = true := by
          unfold is_eol
          rw [hstop]
          rfl
        rw [hisle]
        rfl
  | succ n ihn =>
    intro f s j hn hle hjlen hf hmid hstop
    have hlt : s.current < j := by omega
    have hcl : s.current < s.code_bytes.length := by omega
    obtain ⟨b, hb⟩ := lt_get?_some hcl
    obtain ⟨h34, h10, h13⟩ := hmid s.current hlt (Nat.le_refl _)
    have hb34 : b ≠ 34 := fun e => h34 (e ▸ hb)
    have hb10 : b ≠ 10 := fun e => h10 (e ▸ hb)
    have hb13 : b ≠ 13 := fun e => h13 (e ▸ hb)
    have hnoeol : is_eol s = false := by
      unfold is_eol
      rw [hb]
      simp only [NEW_LINE, LINE_FEED, Bool.or_eq_false_iff, beq_eq_false_iff_ne, ne_eq]
      exact ⟨hb10, hb13⟩
    cases f with
    | zero => omega
    | succ f =>
      unfold eat_string_go
      simp only [hb]
      have hcond : (b != 34 && !is_eol s) = true := by
        rw [hnoeol]
        simp only [bne_iff_ne, ne_eq, Bool.not_false, Bool.and_true]
        exact hb34
      rw [if_pos hcond]
      have hstep := ihn f (advance s) j (by simp only [advance_current]; omega)
        (by simp only [advance_current]; omega)
        (by simp only [advance_code_bytes]; exact hjlen)
        (by simp only [advance_current]; omega)
        (by
          intro k hk hk2
          simp only [advance_code_bytes]
          refine hmid k hk ?_
          simp only [advance_current] at hk2
          omega)
        (by simp only [advance_code_bytes]; exact hstop)
      rw [hstep, advance_not_eol s hnoeol]
      refine lexer_eq_of_fields rfl ?_ rfl rfl rfl
      show s.col + 1 + (j - (s.current + 1)) = s.col + (j - s.current)
      omega

/-- `eat_string` when the loop stops on a closing quote: it succeeds and
pushes one string literal token whose payload is the bytes strictly between
the quotes, recorded at the loop's final position. -/
theorem eat_string_ok_of_loop (s : Lexer) {t : Lexer}
    (hloop : eat_string_go ((advance s).code_bytes.length + 1) (advance s) = t)
    (hne : t.current ≠ t.code_bytes.length)
    (hq : t.code_bytes.get? t.current = some 34)
    (hsl : (advance s).current ≤ t.current) (hsl2 : t.current ≤ t.code_bytes.length) :
    eat_string s = Except.ok (push_token t
      (Token.literal (get_current_token_location t)
        (Literals.string (listSlice t.code_bytes (advance s).current t.current)))) := by
  rw [eat_string_def s hloop]
  rw [if_neg (by simpa using hne)]
  have hgc : get_current_char_byte t = Except.ok 34 := by
    simp only [get_current_char_byte, hq]
  simp only [hgc]
  rw [if_neg (by decide)]
  have hslice : rangeSlice t.code_bytes (advance s).current t.current =
      Except.ok (listSlice t.code_bytes (advance s).current t.current) := by
    unfold rangeSlice
    rw [if_pos ⟨hsl, hsl2⟩]
  simp only [hslice]

/-- `eat_string` when the loop stops at end of input or on a byte other than
a quote: it fails with `unterminatedString` at the entry position. -/
theorem eat_string_err_of_loop (s : Lexer) {t : Lexer}
    (hloop : eat_string_go ((advance s).code_bytes.length + 1) (advance s) = t)
    (hcond : t.current = t.code_bytes.length ∨
      (∃ b, t.code_bytes.get? t.current = some b ∧ (b != 34) = true)) :
    eat_string s = Except.error (LexError.unterminatedString s.row s.col) := by
  rw [eat_string_def s hloop]
  rcases hcond with hc | ⟨b, hb, hbq⟩
  · rw [if_pos (beq_iff_eq.mpr hc)]
  · by_cases hend : (t.current == t.code_bytes.length) = true
    · rw [if_pos hend]
    · rw [if_neg hend]
      have hgc : get_current_char_byte t = Except.ok b := by
        simp only [get_current_char_byte, hb]
      simp only [hgc]
      rw [if_pos hbq]

theorem sim_advance {s t : Lexer} (h : SimT s t) : SimT (advance s) (advance t) := by
  obtain ⟨h1, h2, h3⟩ := h
  refine ⟨?_, ?_, ?_⟩
  · rw [advance_code_bytes, advance_code_bytes, h1]
  · rw [advance_current, advance_current, h2]
  · rw [advance_tokens, advance_tokens, h3]

theorem sim_is_eof {s t : Lexer} (h : SimT s t) (n : Nat) : is_eof s n = is_eof t n := by
  obtain ⟨h1, h2, _⟩ := h
  unfold is_eof
  rw [h1, h2]

theorem sim_is_eol {s t : Lexer} (h : SimT s t) : is_eol s = is_eol t := by
  obtain ⟨h1, h2, _⟩ := h
  unfold is_eol
  rw [h1, h2]

theorem sim_eat_string_go (f : Nat) : ∀ {s t : Lexer}, SimT s t →
    SimT (eat_string_go f s) (eat_string_go f t) := by
  induction f with
  | zero =>
    intro s t h
    exact h
  | succ f ih =>
    intro s t h
    obtain ⟨h1, h2, h3⟩ := h
    unfold eat_string_go
    rw [h1, h2]
    cases hget : t.code_bytes.get? t.current with
    | none => exact ⟨h1, h2, h3⟩
    | some b =>
      show SimT
        (if (b != 34 && !is_eol s) = true then eat_string_go f (advance s) else s)
        (if (b != 34 && !is_eol t) = true then eat_string_go f (advance t) else t)
      rw [sim_is_eol ⟨h1, h2, h3⟩]
      by_cases hc : (b != 34 && !is_eol t) = true
      · rw [if_pos hc, if_pos hc]
        exact ih (sim_advance ⟨h1, h2, h3⟩)
      · rw [if_neg hc, if_neg hc]
        exact ⟨h1, h2, h3⟩

theorem sim_eat_number_go (f : Nat) : ∀ (e : Bool) {s t : Lexer}, SimT s t →
    SimT (eat_number_go f s e) (eat_number_go f t e) := by
  induction f with
  | zero =>
    intro e s t h
    exact h
  | succ f ih =>
    intro e s t h
    obtain ⟨h1, h2, h3⟩ := h
    unfold eat_number_go
    rw [h1, h2]
    cases hget : t.code_bytes.get? (t.current + 1) with
    | none => exact ⟨h1, h2, h3⟩
    | some b =>
      show SimT
        (if is_digit b = true then
          (if (b == 46) = true then (if e = true then s else eat_number_go f (advance s) true)
            else eat_number_go f (advance s) e)
          else s)
        (if is_digit b = true then
          (if (b == 46) = true then (if e = true then t else eat_number_go f (advance t) true)
            else eat_number_go f (advance t) e)
          else t)
      by_cases hd : is_digit b = true
      · rw [if_pos hd, if_pos hd]
        by_cases hdot : (b == 46) = true
        · rw [if_pos hdot, if_pos hdot]
          cases e with
          | true =>
            rw [if_pos rfl, if_pos rfl]
            exact ⟨h1, h2, h3⟩
          | false =>
            rw [if_neg Bool.false_ne_true, if_neg Bool.false_ne_true]
            exact ih true (sim_advance ⟨h1, h2, h3⟩)
        · rw [if_neg hdot, if_neg hdot]
          exact ih e (sim_advance ⟨h1, h2, h3⟩)
      · rw [if_neg hd, if_neg hd]
        exact ⟨h1, h2, h3⟩

theorem sim_eat_hash_go (f : Nat) : ∀ {s t : Lexer}, SimT s t →
    SimT (eat_hash_go f s) (eat_hash_go f t) := by
  induction f with
  | zero =>
    intro s t h
    exact h
  | succ f ih =>
    intro s t h
    unfold eat_hash_go
    rw [sim_is_eof h 0, sim_is_eol h]
    by_cases hc : (!is_eof t 0 && !is_eol t) = true
    · rw [if_pos hc, if_pos hc]
      exact ih (sim_advance h)
    · rw [if_neg hc, if_neg hc]
      exact h

/-- `lookup` evaluated to a first-order conditional form. -/
theorem lookup_eval (s : Lexer) (c : Nat) :
    lookup s c =
      (if (!is_eof s 1) = true then
        (match s.code_bytes.get? (s.current + 1) with
          | some b =>
            if (b == c) = true then Except.ok (true, advance s) else Except.ok (false, s)
          | none => Except.error LexError.indexOutOfBounds)
      else Except.ok (false, s)) := by
  unfold lookup peek
  by_cases hg : (!is_eof s 1) = true
  · rw [if_pos hg, if_pos hg]
    cases hget : s.code_bytes.get? (s.current + 1) with
    | none => rfl
    | some b => rfl
  · rw [if_neg hg, if_neg hg]

theorem sim_lookup {s t : Lexer} (h : SimT s t) (c : Nat) :
    (lookup s c = Except.ok (false, s) ∧ lookup t c = Except.ok (false, t)) ∨
    (lookup s c = Except.ok (true, advance s) ∧ lookup t c = Except.ok (true, advance t)) := by
  obtain ⟨h1, h2, h3⟩ := h
  rw [lookup_eval s c, lookup_eval t c, sim_is_eof ⟨h1, h2, h3⟩ 1, h1, h2]
  by_cases hg : (!is_eof t 1) = true
  · rw [if_pos hg, if_pos hg]
    cases hget : t.code_bytes.get? (t.current + 1) with
    | none =>
      obtain ⟨b, hb⟩ := lt_get?_some (not_is_eof_lt hg)
      rw [hb] at hget
      exact Option.noConfusion hget
    | some b =>
      by_cases hbc : (b == c) = true
      · right
        show (if (b == c) = true then Except.ok (true, advance s) else Except.ok (false, s)) =
            Except.ok (true, advance s) ∧
          (if (b == c) = true then Except.ok (true, advance t) else Except.ok (false, t)) =
            Except.ok (true, advance t)
        rw [if_pos hbc, if_pos hbc]
        exact ⟨rfl, rfl⟩
      · left
        show (if (b == c) = true then Except.ok (true, advance s) else Except.ok (false, s)) =
            Except.ok (false, s) ∧
          (if (b == c) = true then Except.ok (true, advance t) else Except.ok (false, t)) =
            Except.ok (false, t)
        rw [if_neg hbc, if_neg hbc]
        exact ⟨rfl, rfl⟩
  · rw [if_neg hg, if_neg hg]
    exact Or.inl ⟨rfl, rfl⟩

theorem sim_eat_string {s t : Lexer} (h : SimT s t) :
    SimR (eat_string s) (eat_string t) := by
  obtain ⟨h1, h2, h3⟩ := h
  set S := eat_string_go ((advance s).code_bytes.length + 1) (advance s) with hS
  set T := eat_string_go ((advance t).code_bytes.length + 1) (advance t) with hT
  have hloop : SimT S T := by
    rw [hS, hT]
    have hlen : (advance s).code_bytes.length = (advance t).code_bytes.length := by
      rw [advance_code_bytes, advance_code_bytes, h1]
    rw [hlen]
    exact sim_eat_string_go _ (sim_advance ⟨h1, h2, h3⟩)
  obtain ⟨k1, k2, k3⟩ := hloop
  rw [eat_string_def s hS.symm, eat_string_def t hT.symm]
  have hcond : (S.current == S.code_bytes.length) = (T.current == T.code_bytes.length) := by
    rw [k1, k2]
  by_cases he : (T.current == T.code_bytes.length) = true
  · rw [hcond, if_pos he, if_pos he]
    exact trivial
  · rw [hcond, if_neg he, if_neg he]
    have hgc : get_current_char_byte S = get_current_char_byte T := by
      unfold get_current_char_byte
      rw [k1, k2]
    rw [hgc]
    cases hget : get_current_char_byte T with
    | error e => exact trivial
    | ok b =>
      show SimR
        (if (b != 34) = true then Except.error (LexError.unterminatedString s.row s.col)
          else
            match rangeSlice S.code_bytes (advance s).current S.current with
            | Except.error e => Except.error e
            | Except.ok str_bytes =>
              Except.ok (push_token S
                (Token.literal (get_current_token_location S) (Literals.string str_bytes))))
        (if (b != 34) = true then Except.error (LexError.unterminatedString t.row t.col)
          else
            match rangeSlice T.code_bytes (advance t).current T.current with
            | Except.error e => Except.error e
            | Except.ok str_bytes =>
              Except.ok (push_token T
                (Token.literal (get_current_token_location T) (Literals.string str_bytes))))
      by_cases hq : (b != 34) = true
      · rw [if_pos hq, if_pos hq]
        exact trivial
      · rw [if_neg hq, if_neg hq]
        have hcur : (advance s).current = (advance t).current := by
          rw [advance_current, advance_current, h2]
        have hrs : rangeSlice S.code_bytes (advance s).current S.current =
            rangeSlice T.code_bytes (advance t).current T.current := by
          rw [k1, k2, hcur]
        rw [hrs]
        cases hsl : rangeSlice T.code_bytes (advance t).current T.current with
        | error e => exact trivial
        | ok bs =>
          show SimT
            (push_token S
              (Token.literal (get_current_token_location S) (Literals.string bs)))
            (push_token T
              (Token.literal (get_current_token_location T) (Literals.string bs)))
          refine ⟨?_, ?_, ?_⟩
          · rw [push_token_code_bytes, push_token_code_bytes, k1]
          · rw [push_token_current, push_token_current, k2]
          · simp only [push_token_tokens, List.map_append, k3, List.map_cons,
              List.map_nil, Token.shape]

theorem sim_eat_number {s t : Lexer} (h : SimT s t) :
    SimR (eat_number s) (eat_number t) := by
  obtain ⟨h1, h2, h3⟩ := h
  set S := eat_number_go (s.code_bytes.length + 1) s false with hS
  set T := eat_number_go (t.code_bytes.length + 1) t false with hT
  have hloop : SimT S T := by
    rw [hS, hT, h1]
    exact sim_eat_number_go _ false ⟨h1, h2, h3⟩
  obtain ⟨k1, k2, k3⟩ := hloop
  rw [eat_number_def s hS.symm, eat_number_def t hT.symm]
  have hrs : rangeSlice S.code_bytes s.current (S.current + 1) =
      rangeSlice T.code_bytes t.current (T.current + 1) := by
    rw [k1, k2, h2]
  rw [hrs]
  cases hsl : rangeSlice T.code_bytes t.current (T.current + 1) with
  | error e => exact trivial
  | ok bs =>
    show SimT
      (push_token S (Token.literal { row := s.row, col := s.col } (Literals.number bs)))
      (push_token T (Token.literal { row := t.row, col := t.col } (Literals.number bs)))
    refine ⟨?_, ?_, ?_⟩
    · rw [push_token_code_bytes, push_token_code_bytes, k1]
    · rw [push_token_current, push_token_current, k2]
    · simp only [push_token_tokens, List.map_append, k3, List.map_cons,
        List.map_nil, Token.shape]

theorem sim_push_op {s t : Lexer} (h1 : s.code_bytes = t.code_bytes)
    (h2 : s.current = t.current)
    (h3 : s.tokens.map Token.shape = t.tokens.map Token.shape)
    {tokS tokT : Token} (hsh : tokS.shape = tokT.shape) :
    SimT (push_token s tokS) (push_token t tokT) := by
  refine ⟨?_, ?_, ?_⟩
  · rw [push_token_code_bytes, push_token_code_bytes, h1]
  · rw [push_token_current, push_token_current, h2]
  · simp only [push_token_tokens, List.map_append, h3, List.map_cons, List.map_nil, hsh]

theorem sim_dispatch {s t : Lexer} (h : SimT s t) (b : Nat) :
    SimR (dispatch s b) (dispatch t b) := by
  obtain ⟨h1, h2, h3⟩ := h
  rcases byte_cases b with rfl | rfl | rfl | rfl | rfl | rfl | rfl | rfl | rfl | rfl |
    rfl | rfl | rfl | hdig | hnr
  · exact ⟨h1, h2, h3⟩
  · exact sim_advance ⟨h1, h2, h3⟩
  · exact sim_advance ⟨h1, h2, h3⟩
  · show SimR
      (match lookup s 43 with
        | Except.error e => Except.error e
        | Except.ok (matched, s1) =>
          if matched then
            Except.ok (push_token s1
              (Token.operator (get_current_token_location s1) Operators.increment))
          else
            Except.ok (push_token s1
              (Token.operator (get_current_token_location s1) Operators.plus)))
      (match lookup t 43 with
        | Except.error e => Except.error e
        | Except.ok (matched, s1) =>
          if matched then
            Except.ok (push_token s1
              (Token.operator (get_current_token_location s1) Operators.increment))
          else
            Except.ok (push_token s1
              (Token.operator (get_current_token_location s1) Operators.plus)))
    rcases sim_lookup ⟨h1, h2, h3⟩ 43 with ⟨hl1, hl2⟩ | ⟨hl1, hl2⟩
    · rw [hl1, hl2]
      exact sim_push_op h1 h2 h3 rfl
    · rw [hl1, hl2]
      have hadv := sim_advance (s := s) (t := t) ⟨h1, h2, h3⟩
      exact sim_push_op hadv.1 hadv.2.1 hadv.2.2 rfl
  · show SimR
      (match lookup s 45 with
        | Except.error e => Except.error e
        | Except.ok (matched, s1) =>
          if matched then
            Except.ok (push_token s1
              (Token.operator (get_current_token_location s1) Operators.decrement))
          else
            Except.ok (push_token s1
              (Token.operator (get_current_token_location s1) Operators.minus)))
      (match lookup t 45 with
        | Except.error e => Except.error e
        | Except.ok (matched, s1) =>
          if matched then
            Except.ok (push_token s1
              (Token.operator (get_current_token_location s1) Operators.decrement))
          else
            Except.ok (push_token s1
              (Token.operator (get_current_token_location s1) Operators.minus)))
    rcases sim_lookup ⟨h1, h2, h3⟩ 45 with ⟨hl1, hl2⟩ | ⟨hl1, hl2⟩
    · rw [hl1, hl2]
      exact sim_push_op h1 h2 h3 rfl
    · rw [hl1, hl2]
      have hadv := sim_advance (s := s) (t := t) ⟨h1, h2, h3⟩
      exact sim_push_op hadv.1 hadv.2.1 hadv.2.2 rfl
  · exact sim_push_op h1 h2 h3 rfl
  · exact sim_push_op h1 h2 h3 rfl
  · exact sim_push_op h1 h2 h3 rfl
  · exact sim_push_op h1 h2 h3 rfl
  · exact sim_push_op h1 h2 h3 rfl
  · exact sim_push_op h1 h2 h3 rfl
  · exact sim_eat_string ⟨h1, h2, h3⟩
  · show SimT (eat_hash_single_line_comment s) (eat_hash_single_line_comment t)
    unfold eat_hash_single_line_comment
    rw [h1]
    exact sim_eat_hash_go _ ⟨h1, h2, h3⟩
  · rw [dispatch_digit hdig, dispatch_digit hdig]
    exact sim_eat_number ⟨h1, h2, h3⟩
  · rw [dispatch_unrecognized hnr, dispatch_unrecognized hnr]
    exact trivial

theorem sim_lex_go (f : Nat) : ∀ {s t : Lexer}, SimT s t →
    SimR (lex_go f s) (lex_go f t) := by
  induction f with
  | zero =>
    intro s t h
    exact h
  | succ f ih =>
    intro s t h
    obtain ⟨h1, h2, h3⟩ := h
    unfold lex_go
    have hg : (s.current < s.code_bytes.length) ↔ (t.current < t.code_bytes.length) := by
      rw [h1, h2]
    by_cases hguard : t.current < t.code_bytes.length
    · rw [if_pos (hg.mpr hguard), if_pos hguard]
      have hgc : get_current_char_byte s = get_current_char_byte t := by
        unfold get_current_char_byte
        rw [h1, h2]
      rw [hgc]
      cases hb : get_current_char_byte t with
      | error e => exact trivial
      | ok b =>
        show SimR
          (match dispatch s b with
            | Except.error e => Except.error e
            | Except.ok s1 => lex_go f (advance s1))
          (match dispatch t b with
            | Except.error e => Except.error e
            | Except.ok s1 => lex_go f (advance s1))
        have hd := sim_dispatch ⟨h1, h2, h3⟩ b
        cases hds : dispatch s b with
        | error e1 =>
          rw [hds] at hd
          cases hdt : dispatch t b with
          | error e2 => exact trivial
          | ok t1 =>
            rw [hdt] at hd
            exact hd.elim
        | ok s1 =>
          rw [hds] at hd
          cases hdt : dispatch t b with
          | error e2 =>
            rw [hdt] at hd
            exact hd.elim
          | ok t1 =>
            rw [hdt] at hd
            exact ih (sim_advance hd)
    · rw [if_neg (fun hh => hguard (hg.mp hh)), if_neg hguard]
      exact ⟨h1, h2, h3⟩

/-- Two `lex` calls on the same source from any two instance states produce
related results: both fail, or both succeed with position-for-position equal
token shapes (kinds and payloads). The reset at the start of `lex` discards
everything except `row`/`col`, which only influence recorded positions. -/
theorem sim_lex (s t : Lexer) (code : List Nat) :
    SimR (Lexer.lex s code) (Lexer.lex t code) := by
  rw [lex_eq, lex_eq]
  have h0 : SimT { s with tokens := [], current := 0, code_bytes := code }
      { t with tokens := [], current := 0, code_bytes := code } := ⟨rfl, rfl, rfl⟩
  have hr := sim_lex_go (code.length + 1) h0
  cases hgs : lex_go (code.length + 1)
      { s with tokens := [], current := 0, code_bytes := code } with
  | error e1 =>
    rw [hgs] at hr
    cases hgt : lex_go (code.length + 1)
        { t with tokens := [], current := 0, code_bytes := code } with
    | error e2 => exact trivial
    | ok t1 =>
      rw [hgt] at hr
      exact hr.elim
  | ok s1 =>
    rw [hgs] at hr
    cases hgt : lex_go (code.length + 1)
        { t with tokens := [], current := 0, code_bytes := code } with
    | error e2 =>
      rw [hgt] at hr
      exact hr.elim
    | ok t1 =>
      rw [hgt] at hr
      exact sim_push_op hr.1 hr.2.1 hr.2.2 rfl

end Lemmas

section Claims

open Lexer

/-- Claim C1 (code bug): `-` is a valid lexeme on its own, but in the input
`"+\n-"` the `-` after the line break is never tokenized: the newline match
arm calls `advance` and the loop's unconditional trailing `advance` then steps
over the following character, so the scan of `"+\n-"` returns only
`[Plus at 1:1, EOF at 2:2]` and no token with `row = 2` is emitted for the
second line's lexeme. -/
theorem newline_arm_skips_next_lexeme :
    lexTokens (strBytes "-") =
      Except.ok [Token.operator ⟨1, 1⟩ Operators.minus, Token.eof ⟨1, 2⟩] ∧
    lexTokens (strBytes "+\n-") =
      Except.ok [Token.operator ⟨1, 1⟩ Operators.plus, Token.eof ⟨2, 2⟩] :=
  ⟨by rfl, by rfl⟩

/-- Claim C2, counterexample: for the input `"\n"` the scanner finishes with
`cursor = 2` while the source length is `1`, refuting `cursor ≤ len(source)`
(the newline arm advances and the trailing unconditional advance moves one
past the end). -/
theorem final_cursor_exceeds_source_length :
    Lexer.lex Lexer.new [10] =
      Except.ok (Lexer.mk 2 2 2 [10] [Token.eof ⟨2, 2⟩]) ∧
    ¬ ((Lexer.mk 2 2 2 [10] [Token.eof ⟨2, 2⟩]).current ≤ List.length [10]) :=
  ⟨by rfl, by decide⟩

/-- Claim C2, amended: during a `lex` call started with `row ≥ 1` and
`col ≥ 1`, the final state satisfies `cursor ≤ len(source) + 1` (the bound
`len(source)` fails, see the counterexample), `row ≥ 1` and `col ≥ 1`;
`tokens` is reset to empty at the start of the call, and every completed run
of the main loop only appends to `tokens`. -/
theorem lex_state_invariants (s0 : Lexer) (code : List Nat) (s' : Lexer)
    (hrow : 1 ≤ s0.row) (hcol : 1 ≤ s0.col)
    (h : Lexer.lex s0 code = Except.ok s') :
    s'.code_bytes = code ∧ s'.current ≤ code.length + 1 ∧ 1 ≤ s'.row ∧ 1 ≤ s'.col ∧
    ({ s0 with tokens := [], current := 0, code_bytes := code } : Lexer).tokens = [] ∧
    (∀ (f : Nat) (t t' : Lexer), lex_go f t = Except.ok t' →
      ∃ ts, t'.tokens = t.tokens ++ ts) := by
  rw [lex_eq] at h
  cases hg : lex_go (code.length + 1)
      { s0 with tokens := [], current := 0, code_bytes := code } with
  | error e =>
    rw [hg] at h
    exact Except.noConfusion h
  | ok s1 =>
    simp only [hg] at h
    obtain rfl := Except.ok.inj h
    obtain ⟨p1, p2, p3, ⟨ns, hns, _⟩, p5, p6⟩ := lex_go_ok_spec _ hg
    refine ⟨?_, ?_, ?_, ?_, rfl, ?_⟩
    · exact p1
    · show s1.current ≤ code.length + 1
      exact p3 (Nat.zero_le _)
    · exact p5 hrow
    · exact p6 hcol
    · intro f t t' hgo
      obtain ⟨_, _, _, ⟨ts2, hts2, _⟩, _, _⟩ := lex_go_ok_spec f hgo
      exact ⟨ts2, hts2⟩

/-- Witness for the amended claim C2 at the concrete input `"+"`. -/
theorem lex_state_invariants_witness :
    1 ≤ Lexer.new.row ∧ 1 ≤ Lexer.new.col ∧
    Lexer.lex Lexer.new [43] = Except.ok (Lexer.mk 1 2 1 [43]
      [Token.operator ⟨1, 1⟩ Operators.plus, Token.eof ⟨1, 2⟩]) ∧
    ((Lexer.mk 1 2 1 [43]
        [Token.operator ⟨1, 1⟩ Operators.plus, Token.eof ⟨1, 2⟩]).code_bytes = [43] ∧
      (Lexer.mk 1 2 1 [43]
        [Token.operator ⟨1, 1⟩ Operators.plus, Token.eof ⟨1, 2⟩]).current ≤
          List.length [43] + 1 ∧
      1 ≤ (Lexer.mk 1 2 1 [43]
        [Token.operator ⟨1, 1⟩ Operators.plus, Token.eof ⟨1, 2⟩]).row ∧
      1 ≤ (Lexer.mk 1 2 1 [43]
        [Token.operator ⟨1, 1⟩ Operators.plus, Token.eof ⟨1, 2⟩]).col ∧
      ({ Lexer.new with tokens := [], current := 0, code_bytes := [43] } : Lexer).tokens = [] ∧
      (∀ (f : Nat) (t t' : Lexer), lex_go f t = Except.ok t' →
        ∃ ts, t'.tokens = t.tokens ++ ts)) :=
  ⟨by decide, by decide, by rfl,
    lex_state_invariants Lexer.new [43] _ (by decide) (by decide) (by rfl)⟩

/-- Claim C3, counterexample: lexing `"1.2.3"` does not return a token list
at all — it fails with `InvalidCharacter` on the lone `.` left after the
number literal `"1.2"`, at row 1, column 4. -/
theorem lex_one_two_three_is_error :
    lexTokens (strBytes "1.2.3") = Except.error (LexError.invalidCharacter 46 1 4) := by
  rfl

/-- Claim C3, amended: on `"1.2.3"` the number scan forms a single
`NumberLiteral` with payload `"1.2"`, stopping before the second decimal
point; the remainder is then scanned per the dispatch table, where the lone
`.` matches no case, so the whole scan aborts with
`InvalidCharacter('.', 1, 4)` instead of returning tokens (the `".3"` is not
silently dropped — it causes the failure). -/
theorem one_two_three_number_then_invalid :
    eat_number (Lexer.mk 1 1 0 (strBytes "1.2.3") []) =
      Except.ok (Lexer.mk 1 3 2 (strBytes "1.2.3")
        [Token.literal ⟨1, 1⟩ (Literals.number (strBytes "1.2"))]) ∧
    lexTokens (strBytes "1.2.3") = Except.error (LexError.invalidCharacter 46 1 4) :=
  ⟨by rfl, by rfl⟩

/-- Claim C5: whenever the main loop reaches an in-bounds byte that matches
no recognized lexeme start, the scan fails with `InvalidCharacter` carrying
that byte and the current row/column. -/
theorem unrecognized_byte_invalid_character (f : Nat) (s : Lexer) (b : Nat)
    (hlt : s.current < s.code_bytes.length)
    (hb : s.code_bytes.get? s.current = some b)
    (hnr : recognized_start b = false) :
    lex_go (f + 1) s = Except.error (LexError.invalidCharacter b s.row s.col) := by
  unfold lex_go
  rw [if_pos hlt]
  have hgc : get_current_char_byte s = Except.ok b := by
    simp only [get_current_char_byte, hb]
  simp only [hgc, dispatch_unrecognized hnr]

/-- Witness for claim C5 at the concrete input `"a"`. -/
theorem unrecognized_byte_invalid_character_witness :
    (Lexer.mk 1 1 0 [97] []).current < (Lexer.mk 1 1 0 [97] []).code_bytes.length ∧
    (Lexer.mk 1 1 0 [97] []).code_bytes.get? (Lexer.mk 1 1 0 [97] []).current = some 97 ∧
    recognized_start 97 = false ∧
    lex_go 2 (Lexer.mk 1 1 0 [97] []) =
      Except.error (LexError.invalidCharacter 97 1 1) :=
  ⟨by decide, by decide, by decide,
    unrecognized_byte_invalid_character 1 (Lexer.mk 1 1 0 [97] []) 97
      (by decide) (by decide) (by decide)⟩

/-- Claim C6: the emitted `NumberLiteral` payload spans from the recorded
start offset through one character past the final cursor of the
one-ahead-lookahead loop, recorded at the start position; concretely,
`"123.258"` and `"0.2"` lex to a single full-payload `NumberLiteral`
followed by `EndOfInput`. -/
theorem number_literal_payload_span (s : Lexer) (hcur : s.current < s.code_bytes.length) :
    eat_number s = Except.ok (push_token (eat_number_go (s.code_bytes.length + 1) s false)
      (Token.literal { row := s.row, col := s.col }
        (Literals.number (listSlice s.code_bytes s.current
          ((eat_number_go (s.code_bytes.length + 1) s false).current + 1))))) ∧
    lexTokens (strBytes "123.258") =
      Except.ok [Token.literal ⟨1, 1⟩ (Literals.number (strBytes "123.258")),
        Token.eof ⟨1, 8⟩] ∧
    lexTokens (strBytes "0.2") =
      Except.ok [Token.literal ⟨1, 1⟩ (Literals.number (strBytes "0.2")),
        Token.eof ⟨1, 4⟩] :=
  ⟨eat_number_eq s hcur, by rfl, by rfl⟩

/-- Witness for claim C6 at the concrete input `"0.2"`. -/
theorem number_literal_payload_span_witness :
    (Lexer.mk 1 1 0 [48, 46, 50] []).current <
      (Lexer.mk 1 1 0 [48, 46, 50] []).code_bytes.length ∧
    (eat_number (Lexer.mk 1 1 0 [48, 46, 50] []) =
      Except.ok (push_token
        (eat_number_go ((Lexer.mk 1 1 0 [48, 46, 50] []).code_bytes.length + 1)
          (Lexer.mk 1 1 0 [48, 46, 50] []) false)
        (Token.literal
          (TokenLocation.mk (Lexer.mk 1 1 0 [48, 46, 50] []).row
            (Lexer.mk 1 1 0 [48, 46, 50] []).col)
          (Literals.number (listSlice (Lexer.mk 1 1 0 [48, 46, 50] []).code_bytes
            (Lexer.mk 1 1 0 [48, 46, 50] []).current
            ((eat_number_go ((Lexer.mk 1 1 0 [48, 46, 50] []).code_bytes.length + 1)
              (Lexer.mk 1 1 0 [48, 46, 50] []) false).current + 1))))) ∧
      lexTokens (strBytes "123.258") =
        Except.ok [Token.literal ⟨1, 1⟩ (Literals.number (strBytes "123.258")),
          Token.eof ⟨1, 8⟩] ∧
      lexTokens (strBytes "0.2") =
        Except.ok [Token.literal ⟨1, 1⟩ (Literals.number (strBytes "0.2")),
          Token.eof ⟨1, 4⟩]) :=
  ⟨by decide, number_literal_payload_span (Lexer.mk 1 1 0 [48, 46, 50] []) (by decide)⟩

/-- Claim C9: on every successful scan from a fresh instance the returned
sequence is the loop's tokens (none of which is `EOF`) followed by exactly
one `EOF` token at the loop's final position; for the empty source the `EOF`
position is the initial position row 1, column 1. -/
theorem lex_terminates_with_single_eof (code : List Nat) (ts : List Token)
    (h : lexTokens code = Except.ok ts) :
    (∃ s1, lex_go (code.length + 1)
        { Lexer.new with tokens := [], current := 0, code_bytes := code } = Except.ok s1 ∧
      ts = s1.tokens ++ [Token.eof ⟨s1.row, s1.col⟩] ∧
      ∀ t ∈ s1.tokens, t.isEofTok = false) ∧
    (code = [] → ts = [Token.eof ⟨1, 1⟩]) := by
  unfold lexTokens at h
  rw [lex_eq] at h
  cases hg : lex_go (code.length + 1)
      { Lexer.new with tokens := [], current := 0, code_bytes := code } with
  | error e =>
    rw [hg] at h
    exact Except.noConfusion h
  | ok s1 =>
    simp only [hg, Except.map] at h
    obtain rfl := Except.ok.inj h
    constructor
    · refine ⟨s1, rfl, rfl, ?_⟩
      obtain ⟨_, _, _, ⟨ns, hns, hnsf⟩, _, _⟩ := lex_go_ok_spec _ hg
      intro t ht
      rw [hns] at ht
      exact hnsf t (by simpa using ht)
    · intro hcode
      subst hcode
      obtain rfl := Except.ok.inj (hg.symm.trans
        (show lex_go (List.length ([] : List Nat) + 1)
            { Lexer.new with tokens := [], current := 0, code_bytes := ([] : List Nat) } =
          Except.ok (Lexer.mk 1 1 0 [] []) from rfl))
      rfl

/-- Witness for claim C9 at the concrete input `"+"`. -/
theorem lex_terminates_with_single_eof_witness :
    lexTokens [43] =
      Except.ok [Token.operator ⟨1, 1⟩ Operators.plus, Token.eof ⟨1, 2⟩] ∧
    ((∃ s1, lex_go (List.length [43] + 1)
        { Lexer.new with tokens := [], current := 0, code_bytes := [43] } = Except.ok s1 ∧
      [Token.operator ⟨1, 1⟩ Operators.plus, Token.eof ⟨1, 2⟩] =
        s1.tokens ++ [Token.eof ⟨s1.row, s1.col⟩] ∧
      ∀ t ∈ s1.tokens, t.isEofTok = false) ∧
    ([43] = ([] : List Nat) →
      [Token.operator ⟨1, 1⟩ Operators.plus, Token.eof ⟨1, 2⟩] = [Token.eof ⟨1, 1⟩])) :=
  ⟨by rfl, lex_terminates_with_single_eof [43]
    [Token.operator ⟨1, 1⟩ Operators.plus, Token.eof ⟨1, 2⟩] (by rfl)⟩

/-- Claim C10: in this total embedding, where every Rust slice index and
range slice is modelled as returning `indexOutOfBounds` when out of bounds,
`lex` never returns that error from any instance state: the current byte is
read only under the loop guard, the one-ahead peeks sit behind `is_eof(1)`
guards, and both literal payload slices stay within the buffer. -/
theorem lex_never_index_out_of_bounds (s0 : Lexer) (code : List Nat) :
    not_index_oob (Lexer.lex s0 code) = true := by
  rw [lex_eq]
  cases hg : lex_go (code.length + 1)
      { s0 with tokens := [], current := 0, code_bytes := code } with
  | error e =>
    cases e with
    | invalidCharacter c r cc => rfl
    | unterminatedString r c => rfl
    | indexOutOfBounds => exact absurd hg (lex_go_no_oob _ _)
  | ok s1 => rfl

/-- Witness for claim C10 at the concrete input `"\""`. -/
theorem lex_never_index_out_of_bounds_witness :
    not_index_oob (Lexer.lex Lexer.new [34]) = true :=
  lex_never_index_out_of_bounds Lexer.new [34]

/-- Claim C7: when a string literal's opening quote at the cursor is matched
by a closing quote at position `j` before any line break or end of input,
`eat_string` succeeds and pushes a `StringLiteral` whose payload is exactly
the byte range strictly between the quotes, recorded at the scanner's
position at termination (on the closing quote, `j - cursor` columns to the
right), not at the opening quote; concretely `"\"abc\""` lexes to
`[StringLiteral "abc" at 1:5, EOF at 1:6]`. -/
theorem terminated_string_literal_token (s : Lexer) (j : Nat)
    (hopen : s.code_bytes.get? s.current = some 34)
    (hlt : s.current < j) (hj : j < s.code_bytes.length)
    (hclose : s.code_bytes.get? j = some 34)
    (hmid : ∀ k, k < j → s.current < k → s.code_bytes.get? k ≠ some 34 ∧
      s.code_bytes.get? k ≠ some 10 ∧ s.code_bytes.get? k ≠ some 13) :
    eat_string s = Except.ok { s with current := j, col := s.col + (j - s.current), tokens := s.tokens ++ [Token.literal ⟨s.row, s.col + (j - s.current)⟩ (Literals.string (listSlice s.code_bytes (s.current + 1) j))] } ∧
    lexTokens (strBytes "\"abc\"") =
      Except.ok [Token.literal ⟨1, 5⟩ (Literals.string (strBytes "abc")),
        Token.eof ⟨1, 6⟩] := by
  constructor
  · have hnoeol : is_eol s = false := by
      unfold is_eol
      rw [hopen]
      rfl
    have hadv := advance_not_eol s hnoeol
    have hwalk := eat_string_go_walk (j - (advance s).current)
        ((advance s).code_bytes.length + 1) (advance s) j rfl
        (by simp only [advance_current]; omega)
        (by simp only [advance_code_bytes]; omega)
        (by simp only [advance_current, advance_code_bytes]; omega)
        (by
          intro k hk hk2
          simp only [advance_code_bytes]
          refine hmid k hk ?_
          simp only [advance_current] at hk2
          omega)
        (Or.inr (Or.inl (by simp only [advance_code_bytes]; exact hclose)))
    have happ := eat_string_ok_of_loop s hwalk
        (by simp only [advance_code_bytes]; omega)
        (by simp only [advance_code_bytes]; exact hclose)
        (by simp only [advance_current]; omega)
        (by simp only [advance_code_bytes]; omega)
    rw [hadv] at happ
    rw [happ]
    refine congrArg Except.ok (lexer_eq_of_fields rfl ?_ rfl rfl ?_)
    · show s.col + 1 + (j - (s.current + 1)) = s.col + (j - s.current)
      omega
    · show s.tokens ++ [Token.literal ⟨s.row, s.col + 1 + (j - (s.current + 1))⟩ (Literals.string (listSlice s.code_bytes (s.current + 1) j))] = s.tokens ++ [Token.literal ⟨s.row, s.col + (j - s.current)⟩ (Literals.string (listSlice s.code_bytes (s.current + 1) j))]
      rw [show s.col + 1 + (j - (s.current + 1)) = s.col + (j - s.current) from by omega]
  · rfl

/-- Witness for claim C7 at the concrete input `"\"a\""` with the closing
quote at position 2. -/
theorem terminated_string_literal_token_witness :
    (Lexer.mk 1 1 0 [34, 97, 34] []).code_bytes.get?
        (Lexer.mk 1 1 0 [34, 97, 34] []).current = some 34 ∧
    (Lexer.mk 1 1 0 [34, 97, 34] []).current < 2 ∧
    2 < (Lexer.mk 1 1 0 [34, 97, 34] []).code_bytes.length ∧
    (Lexer.mk 1 1 0 [34, 97, 34] []).code_bytes.get? 2 = some 34 ∧
    (∀ k, k < 2 → (Lexer.mk 1 1 0 [34, 97, 34] []).current < k →
      (Lexer.mk 1 1 0 [34, 97, 34] []).code_bytes.get? k ≠ some 34 ∧
      (Lexer.mk 1 1 0 [34, 97, 34] []).code_bytes.get? k ≠ some 10 ∧
      (Lexer.mk 1 1 0 [34, 97, 34] []).code_bytes.get? k ≠ some 13) ∧
    (eat_string (Lexer.mk 1 1 0 [34, 97, 34] []) = Except.ok { Lexer.mk 1 1 0 [34, 97, 34] [] with current := 2, col := (Lexer.mk 1 1 0 [34, 97, 34] []).col + (2 - (Lexer.mk 1 1 0 [34, 97, 34] []).current), tokens := (Lexer.mk 1 1 0 [34, 97, 34] []).tokens ++ [Token.literal ⟨(Lexer.mk 1 1 0 [34, 97, 34] []).row, (Lexer.mk 1 1 0 [34, 97, 34] []).col + (2 - (Lexer.mk 1 1 0 [34, 97, 34] []).current)⟩ (Literals.string (listSlice (Lexer.mk 1 1 0 [34, 97, 34] []).code_bytes ((Lexer.mk 1 1 0 [34, 97, 34] []).current + 1) 2))] } ∧
      lexTokens (strBytes "\"abc\"") =
        Except.ok [Token.literal ⟨1, 5⟩ (Literals.string (strBytes "abc")),
          Token.eof ⟨1, 6⟩]) :=
  ⟨rfl, by decide, by decide, rfl, by decide,
    terminated_string_literal_token (Lexer.mk 1 1 0 [34, 97, 34] []) 2
      rfl (by decide) (by decide) rfl (by decide)⟩

/-- Claim C8: when a string literal's opening quote at the cursor is never
matched by a closing quote before a line break (at position `j`) or the end
of input, `eat_string` fails with `UnterminatedString` carrying the row and
column of the opening quote, not of the failure point; concretely `"\"abc"`
fails with `UnterminatedString` at 1:1. -/
theorem unterminated_string_literal_error (s : Lexer) (j : Nat)
    (hopen : s.code_bytes.get? s.current = some 34)
    (hlt : s.current < j) (hj : j ≤ s.code_bytes.length)
    (hterm : j = s.code_bytes.length ∨ s.code_bytes.get? j = some 10 ∨
      s.code_bytes.get? j = some 13)
    (hmid : ∀ k, k < j → s.current < k → s.code_bytes.get? k ≠ some 34 ∧
      s.code_bytes.get? k ≠ some 10 ∧ s.code_bytes.get? k ≠ some 13) :
    eat_string s = Except.error (LexError.unterminatedString s.row s.col) ∧
    lexTokens (strBytes "\"abc") = Except.error (LexError.unterminatedString 1 1) := by
  constructor
  · have hnoeol : is_eol s = false := by
      unfold is_eol
      rw [hopen]
      rfl
    have hwalk := eat_string_go_walk (j - (advance s).current)
        ((advance s).code_bytes.length + 1) (advance s) j rfl
        (by simp only [advance_current]; omega)
        (by simp only [advance_code_bytes]; omega)
        (by simp only [advance_current, advance_code_bytes]; omega)
        (by
          intro k hk hk2
          simp only [advance_code_bytes]
          refine hmid k hk ?_
          simp only [advance_current] at hk2
          omega)
        (by
          simp only [advance_code_bytes]
          rcases hterm with h | h | h
          · exact Or.inl h
          · exact Or.inr (Or.inr (Or.inl h))
          · exact Or.inr (Or.inr (Or.inr h)))
    apply eat_string_err_of_loop s hwalk
    rcases hterm with h | h | h
    · exact Or.inl (by simp only [advance_code_bytes]; exact h)
    · exact Or.inr ⟨10, by simp only [advance_code_bytes]; exact h, by decide⟩
    · exact Or.inr ⟨13, by simp only [advance_code_bytes]; exact h, by decide⟩
  · rfl

/-- Witness for claim C8 at the concrete input `"\"abc"` terminating at end
of input (position 4). -/
theorem unterminated_string_literal_error_witness :
    (Lexer.mk 1 1 0 [34, 97, 98, 99] []).code_bytes.get?
        (Lexer.mk 1 1 0 [34, 97, 98, 99] []).current = some 34 ∧
    (Lexer.mk 1 1 0 [34, 97, 98, 99] []).current < 4 ∧
    4 ≤ (Lexer.mk 1 1 0 [34, 97, 98, 99] []).code_bytes.length ∧
    (4 = (Lexer.mk 1 1 0 [34, 97, 98, 99] []).code_bytes.length ∨
      (Lexer.mk 1 1 0 [34, 97, 98, 99] []).code_bytes.get? 4 = some 10 ∨
      (Lexer.mk 1 1 0 [34, 97, 98, 99] []).code_bytes.get? 4 = some 13) ∧
    (∀ k, k < 4 → (Lexer.mk 1 1 0 [34, 97, 98, 99] []).current < k →
      (Lexer.mk 1 1 0 [34, 97, 98, 99] []).code_bytes.get? k ≠ some 34 ∧
      (Lexer.mk 1 1 0 [34, 97, 98, 99] []).code_bytes.get? k ≠ some 10 ∧
      (Lexer.mk 1 1 0 [34, 97, 98, 99] []).code_bytes.get? k ≠ some 13) ∧
    (eat_string (Lexer.mk 1 1 0 [34, 97, 98, 99] []) =
      Except.error (LexError.unterminatedString (Lexer.mk 1 1 0 [34, 97, 98, 99] []).row
        (Lexer.mk 1 1 0 [34, 97, 98, 99] []).col) ∧
      lexTokens (strBytes "\"abc") = Except.error (LexError.unterminatedString 1 1)) :=
  ⟨rfl, by decide, by decide, Or.inl (by decide), by decide,
    unterminated_string_literal_error (Lexer.mk 1 1 0 [34, 97, 98, 99] []) 4
      rfl (by decide) (by decide) (Or.inl (by decide)) (by decide)⟩

/-- Claim C4, counterexample: a second `lex("+")` call on the same instance
does not return the same token sequence as the first — `row`/`col` are not
reset between calls, so the second call's positions are shifted: the first
call returns `[Plus at 1:1, EOF at 1:2]`, the second
`[Plus at 1:2, EOF at 1:3]`. -/
theorem second_lex_call_shifts_positions :
    Lexer.lex Lexer.new [43] = Except.ok (Lexer.mk 1 2 1 [43]
      [Token.operator ⟨1, 1⟩ Operators.plus, Token.eof ⟨1, 2⟩]) ∧
    Except.map Lexer.tokens (Lexer.lex (Lexer.mk 1 2 1 [43]
        [Token.operator ⟨1, 1⟩ Operators.plus, Token.eof ⟨1, 2⟩]) [43]) =
      Except.ok [Token.operator ⟨1, 2⟩ Operators.plus, Token.eof ⟨1, 3⟩] ∧
    ([Token.operator ⟨1, 1⟩ Operators.plus, Token.eof ⟨1, 2⟩] : List Token) ≠
      [Token.operator ⟨1, 2⟩ Operators.plus, Token.eof ⟨1, 3⟩] :=
  ⟨by rfl, by rfl, by decide⟩

/-- Claim C4, amended: a Scanner instance is reusable up to positions — each
call to `lex` resets `cursor`/`tokens` and rebinds the source buffer, but
not `row`/`col`, so after a successful first call a second call on the same
instance succeeds and returns the same sequence of token kinds and payloads
in the same order (and hence the same shapes as a fresh instance would);
only the recorded positions can differ. -/
theorem second_lex_call_same_token_shapes (code : List Nat) (s1 : Lexer)
    (h : Lexer.lex Lexer.new code = Except.ok s1) :
    ∃ s2, Lexer.lex s1 code = Except.ok s2 ∧
      s2.tokens.map Token.shape = s1.tokens.map Token.shape := by
  have hr := sim_lex Lexer.new s1 code
  rw [h] at hr
  cases hgt : Lexer.lex s1 code with
  | error e =>
    rw [hgt] at hr
    exact hr.elim
  | ok s2 =>
    rw [hgt] at hr
    exact ⟨s2, rfl, hr.2.2.symm⟩

/-- Witness for the amended claim C4 at the concrete input `"+"`. -/
theorem second_lex_call_same_token_shapes_witness :
    Lexer.lex Lexer.new [43] = Except.ok (Lexer.mk 1 2 1 [43]
      [Token.operator ⟨1, 1⟩ Operators.plus, Token.eof ⟨1, 2⟩]) ∧
    (∃ s2, Lexer.lex (Lexer.mk 1 2 1 [43]
        [Token.operator ⟨1, 1⟩ Operators.plus, Token.eof ⟨1, 2⟩]) [43] = Except.ok s2 ∧
      s2.tokens.map Token.shape = (Lexer.mk 1 2 1 [43]
        [Token.operator ⟨1, 1⟩ Operators.plus, Token.eof ⟨1, 2⟩]).tokens.map Token.shape) :=
  ⟨by rfl, second_lex_call_same_token_shapes [43] _ (by rfl)⟩

end Claims

end RsLox
